import Mathlib

/-!
Verification of `src/photo_duplicate_manager.py`.

The Python source is shallowly embedded below. Filesystem paths are strings.
A perceptual hash (`imagehash.ImageHash`) is represented by its string form
`str(ph)`, which is what `group_exact_duplicates` keys its dictionary by;
for `ImageHash` values, equality coincides with equality of the string form,
so the string is a faithful stand-in for the fingerprint value itself.
A Python dictionary is embedded as an association list in insertion order
(Python dicts iterate in insertion order), with distinct keys.
-/

namespace PhotoDup

/-- Filesystem path (`str` in the source). -/
abbrev Path := String

/-! ## `group_exact_duplicates` (source lines 52–65)

```python
mapping = {}
for filepath, ph in hash_dict.items():
    if ph is None:
        continue
    key = str(ph)
    mapping.setdefault(key, []).append(filepath)
return [group for group in mapping.values() if len(group) > 1]
```
-/

/-- One step of `mapping.setdefault(key, []).append(filepath)`: append `p` to
the list stored at `key`, creating the entry at the end if `key` is new. -/
def insertIntoMapping (m : List (String × List Path)) (key : String) (p : Path) :
    List (String × List Path) :=
  match m with
  | [] => [(key, [p])]
  | (k, ps) :: rest =>
      if k = key then (k, ps ++ [p]) :: rest
      else (k, ps) :: insertIntoMapping rest key p

/-- The `mapping` dictionary built by the loop of `group_exact_duplicates`:
entries with hash `None` are skipped, the rest are inserted keyed by the
hash string. -/
def buildMapping (hash_dict : List (Path × Option String)) :
    List (String × List Path) :=
  hash_dict.foldl
    (fun m e =>
      match e.2 with
      | none => m
      | some ph => insertIntoMapping m ph e.1)
    []

/-- `group_exact_duplicates` (source lines 52–65): the values of `mapping`
that have more than one element. -/
def group_exact_duplicates (hash_dict : List (Path × Option String)) :
    List (List Path) :=
  ((buildMapping hash_dict).map Prod.snd).filter (fun group => 1 < group.length)

/-- Paths of `hash_dict` carrying exactly the hash string `k`, in input order. -/
def pathsWith (hash_dict : List (Path × Option String)) (k : String) : List Path :=
  (hash_dict.filter (fun e => e.2 = some k)).map Prod.fst

/-- Keys of an association list. -/
def mkeys (m : List (String × List Path)) : List String :=
  m.map Prod.fst

/-- Lookup in an association list, defaulting to `[]`. -/
def mlookup (m : List (String × List Path)) (k : String) : List Path :=
  match m with
  | [] => []
  | (k', ps) :: rest => if k' = k then ps else mlookup rest k

/-! ## `safe_compute_hash` (source lines 41–50) and the hashing loop (99–106) -/

/-- Outcome of `Image.open(image_path)` followed by `imagehash.phash(img)`:
the hash string on success, or a raised exception. The image decoding and
hashing themselves are external collaborators. -/
abbrev PhashFn := Path → Except String String

/-- `safe_compute_hash` (lines 41–50): any exception from opening or hashing
the image is caught and turned into `(image_path, None)`. -/
def safe_compute_hash (phash : PhashFn) (image_path : Path) : Path × Option String :=
  match phash image_path with
  | Except.ok h => (image_path, some h)
  | Except.error _ => (image_path, none)

/-- Result stream of `executor.map(safe_compute_hash, images)` (line 100):
`ProcessPoolExecutor.map` yields exactly one result per input, in input
order. -/
def computeHashResults (phash : PhashFn) (images : List Path) :
    List (Path × Option String) :=
  images.map (safe_compute_hash phash)

/-! ## `print_progress_bar` (lines 25–39) and the ETA computation (102–105) -/

/-- `fraction = current / total if total > 0 else 1` (line 33). -/
def barFraction (current total : Nat) : ℚ :=
  if 0 < total then (current : ℚ) / total else 1

/-- `done_width = int(fraction * width)` (line 34); `int` truncates toward
zero, which on the nonnegative fractions arising here is the floor. -/
def doneWidth (current total width : Nat) : Nat :=
  (Int.floor (barFraction current total * width)).toNat

/-- The bar text `"#" * done_width + "-" * (width - done_width)` (line 35). -/
def barString (current total width : Nat) : String :=
  String.mk (List.replicate (doneWidth current total width) '#' ++
    List.replicate (width - doneWidth current total width) '-')

/-- ETA passed to the bar after the `i`-th completion (lines 102–104):
`avg_time = elapsed / i` and `remaining = avg_time * (n_images - i)`. -/
def etaAt (elapsed : ℚ) (i n : Nat) : ℚ :=
  elapsed / i * ((n : ℚ) - i)

/-- The sequence of `print_progress_bar(i, n_images, eta=remaining)` calls
made by the hashing loop (lines 100–105): one call per completed item, for
`i = 1 .. n` (`enumerate(..., start=1)`); `elapsedAt i` is the wall-clock
time elapsed since `start_time` when the `i`-th result arrives. Each entry
is `(current, total, eta)`. -/
def progressCalls (elapsedAt : Nat → ℚ) (n : Nat) : List (Nat × Nat × ℚ) :=
  (List.range n).map (fun j => (j + 1, n, etaAt (elapsedAt (j + 1)) (j + 1) n))

/-! ## The move phase of `compare_images` (lines 112–119)

```python
for group in exact_groups:
    original = max(group, key=lambda p: os.path.getsize(p))
    for img in group:
        if img != original:
            move_duplicate(img, duplicates_dir)
```

`os.path.getsize` is modelled by `size : Path → Option Nat` (`none` is a
raised `OSError`), and the success of a `move_duplicate` call by
`mvOk : Path → Bool`. No exception handler surrounds this phase, so a raised
exception aborts everything after it; the `Bool` in each result records
whether an exception was raised. -/

/-- Accumulator loop of Python's `max(group, key=...)`: keep the current
best, replace it only when a later key is strictly greater. A key failure
(`none` size) raises. -/
def pyMaxBySizeGo (size : Path → Option Nat) : List Path → Path × Nat → Option Path
  | [], best => some best.1
  | q :: qs, best =>
      match size q with
      | none => none
      | some sq => pyMaxBySizeGo size qs (if best.2 < sq then (q, sq) else best)

/-- `max(group, key=lambda p: os.path.getsize(p))` (line 116): the first
element of greatest size; `none` when the group is empty (`ValueError`) or a
size lookup raises. -/
def pyMaxBySize (size : Path → Option Nat) : List Path → Option Path
  | [] => none
  | p :: ps =>
      match size p with
      | none => none
      | some s => pyMaxBySizeGo size ps (p, s)

/-- Pure form of the same accumulator for a total size function. -/
def firstMax (sz : Path → Nat) (p : Path) (ps : List Path) : Path :=
  ps.foldl (fun best q => if sz best < sz q then q else best) p

/-- Inner loop (lines 117–119): move every member other than `original`;
a move failure raises, aborting the remaining iterations. Returns the files
moved so far, in order, and whether an exception was raised. -/
def moveOthers (mvOk : Path → Bool) (original : Path) : List Path → List Path × Bool
  | [] => ([], false)
  | img :: rest =>
      if img = original then moveOthers mvOk original rest
      else if mvOk img then
        let r := moveOthers mvOk original rest
        (img :: r.1, r.2)
      else ([], true)

/-- One iteration of the outer loop (lines 114–119): compute the original
via `max` (an exception there aborts before any move of this group), then
move the others. -/
def moveGroup (size : Path → Option Nat) (mvOk : Path → Bool) (group : List Path) :
    List Path × Bool :=
  match pyMaxBySize size group with
  | none => ([], true)
  | some original => moveOthers mvOk original group

/-- The whole move phase (lines 112–119): groups are processed in order and
a raised exception aborts the remaining groups — `compare_images` has no
handler for it. -/
def movePhase (size : Path → Option Nat) (mvOk : Path → Bool) :
    List (List Path) → List Path × Bool
  | [] => ([], false)
  | g :: gs =>
      let r := moveGroup size mvOk g
      if r.2 then (r.1, true)
      else
        let r2 := movePhase size mvOk gs
        (r.1 ++ r2.1, r2.2)

/-- Error isolation in the move phase, as the specification states it: a
size-lookup or move failure is confined to its file, so every file that is
not its group's original and whose own move succeeds ends up moved. -/
def MoveFailureIsolated : Prop :=
  ∀ (size : Path → Option Nat) (mvOk : Path → Bool) (groups : List (List Path)),
    ∀ g ∈ groups, ∀ p ∈ g, mvOk p = true →
      (∃ o, pyMaxBySize size g = some o ∧ p ≠ o) →
      p ∈ (movePhase size mvOk groups).1

/-! ## `move_duplicate` (lines 67–80)

```python
name = os.path.basename(src_file)
dest = os.path.join(duplicates_dir, name)
base, ext = os.path.splitext(name)
i = 1
while os.path.exists(dest):
    dest = os.path.join(duplicates_dir, f"{base}_{i}{ext}")
    i += 1
shutil.move(src_file, dest)
```

`os.path.splitext` is an external collaborator whose defining property is
`base ++ ext = name`; the set of filenames already present in the quarantine
directory is the list `used`. Only the choice of destination filename is
modelled; `shutil.move` then moves the file to that name. -/

/-- Candidate destination filename `f"{base}_{i}{ext}"` (line 78), with the
decimal rendering of `i`. -/
def candName (base ext : String) (i : Nat) : String :=
  base ++ "_" ++ Nat.repr i ++ ext

/-- The `while os.path.exists(dest)` loop (lines 76–79), with explicit fuel:
try `candName base ext i`, then `i + 1`, … until a name not in `used` is
found. -/
def findFreeName (used : List String) (base ext : String) : Nat → Nat → Option String
  | 0, _ => none
  | fuel + 1, i =>
      if candName base ext i ∈ used then findFreeName used base ext fuel (i + 1)
      else some (candName base ext i)

/-- Destination filename chosen by `move_duplicate` for a source file with
basename `base ++ ext`: the basename itself when unused, otherwise the first
unused suffixed candidate. Fuel `used.length + 1` always suffices, because
among `used.length + 1` distinct candidates at least one is unused. -/
def move_duplicate_dest (used : List String) (base ext : String) : Option String :=
  if base ++ ext ∈ used then findFreeName used base ext (used.length + 1) 1
  else some (base ++ ext)

/-- Decimal digit characters of `n`, most significant first: the reference
function for `Nat.toDigits 10` used to reason about `Nat.repr`. -/
def decChars (n : Nat) : List Char :=
  if n < 10 then [Nat.digitChar n]
  else decChars (n / 10) ++ [Nat.digitChar (n % 10)]
termination_by n
decreasing_by exact Nat.div_lt_self (by omega) (by omega)

/-- Left inverse of `Nat.digitChar` on decimal digits. -/
def digitVal (c : Char) : Nat :=
  if c = '0' then 0 else if c = '1' then 1 else if c = '2' then 2
  else if c = '3' then 3 else if c = '4' then 4 else if c = '5' then 5
  else if c = '6' then 6 else if c = '7' then 7 else if c = '8' then 8
  else 9

/-! ## The `__main__` block (lines 134–146) -/

/-- Usage text printed on an invalid invocation (lines 136–138). -/
def usageText : String :=
  "Usage:\n  python3 photo_duplicate_manager.py /path/to/folder\n  python3 photo_duplicate_manager.py /path/to/folder -m /path/to/destination"

/-- What the `__main__` block decides to do with an argument vector. -/
inductive MainAction where
  | usageExit (msg : String) (code : Nat)
  | runScan (folder : String) (movePath : Option String)
deriving DecidableEq

/-- Exit status of the process: 1 from `sys.exit(1)` (line 139), 0 when
`compare_images` returns normally and the script falls off the end. -/
def exitCode : MainAction → Nat
  | MainAction.usageExit _ c => c
  | MainAction.runScan _ _ => 0

/-- The argument check of the `__main__` block (lines 134–146):
`len(sys.argv) not in (2, 4) or (len(sys.argv) == 4 and sys.argv[2] != "-m")`
prints the usage text and exits with status 1; otherwise `compare_images`
runs on `sys.argv[1]`, moving to `sys.argv[3]` when given. -/
def mainDispatch (argv : List String) : MainAction :=
  if (argv.length ≠ 2 ∧ argv.length ≠ 4) ∨
      (argv.length = 4 ∧ argv.get? 2 ≠ some "-m") then
    MainAction.usageExit usageText 1
  else
    MainAction.runScan (argv.getD 1 "")
      (if argv.length = 4 then some (argv.getD 3 "") else none)

end PhotoDup

namespace PhotoDup

theorem mlookup_insert_self (m : List (String × List Path)) (k : String) (p : Path) :
    mlookup (insertIntoMapping m k p) k = mlookup m k ++ [p] := by
  induction m with
  | nil => simp [insertIntoMapping, mlookup]
  | cons e rest ih =>
      obtain ⟨k', ps⟩ := e
      by_cases h : k' = k
      · subst h; simp [insertIntoMapping, mlookup]
      · simp [insertIntoMapping, mlookup, h, ih]

theorem mlookup_insert_ne (m : List (String × List Path)) (k k' : String) (p : Path)
    (hne : k' ≠ k) : mlookup (insertIntoMapping m k p) k' = mlookup m k' := by
  induction m with
  | nil => simp [insertIntoMapping, mlookup, Ne.symm hne]
  | cons e rest ih =>
      obtain ⟨k0, ps⟩ := e
      by_cases h : k0 = k
      · subst h
        have : k0 ≠ k' := fun h' => hne h'.symm
        simp [insertIntoMapping, mlookup, this]
      · by_cases h' : k0 = k'
        · subst h'; simp [insertIntoMapping, mlookup, h]
        · simp [insertIntoMapping, mlookup, h, h', ih]

theorem mkeys_insert (m : List (String × List Path)) (k : String) (p : Path) :
    mkeys (insertIntoMapping m k p) =
      if k ∈ mkeys m then mkeys m else mkeys m ++ [k] := by
  induction m with
  | nil => simp [insertIntoMapping, mkeys]
  | cons e rest ih =>
      obtain ⟨k0, ps⟩ := e
      by_cases h : k0 = k
      · subst h; simp [insertIntoMapping, mkeys]
      · have hne : ¬ k = k0 := fun h' => h h'.symm
        by_cases hmem : k ∈ mkeys rest
        · simp only [mkeys, List.map_cons, List.mem_cons] at ih hmem ⊢
          simp [insertIntoMapping, if_neg h, ih, hmem, hne]
        · simp only [mkeys, List.map_cons, List.mem_cons] at ih hmem ⊢
          simp [insertIntoMapping, if_neg h, ih, hmem, hne]

theorem mkeys_insert_nodup (m : List (String × List Path)) (k : String) (p : Path)
    (h : (mkeys m).Nodup) : (mkeys (insertIntoMapping m k p)).Nodup := by
  rw [mkeys_insert]
  by_cases hmem : k ∈ mkeys m
  · simpa [hmem] using h
  · simp only [hmem, if_false]
    simpa [List.nodup_append] using ⟨h, hmem⟩

theorem insert_snd_ne_nil (m : List (String × List Path)) (k : String) (p : Path)
    (h : ∀ e ∈ m, e.2 ≠ []) : ∀ e ∈ insertIntoMapping m k p, e.2 ≠ [] := by
  induction m with
  | nil => simp [insertIntoMapping]
  | cons e0 rest ih =>
      obtain ⟨k0, ps⟩ := e0
      rw [List.forall_mem_cons] at h
      by_cases hk : k0 = k
      · subst hk
        simp only [insertIntoMapping, eq_self_iff_true, if_true, List.forall_mem_cons]
        exact ⟨by simp, h.2⟩
      · simp only [insertIntoMapping, if_neg hk, List.forall_mem_cons]
        exact ⟨h.1, ih h.2⟩

theorem pathsWith_cons (p : Path) (oph : Option String) (t : List (Path × Option String))
    (k : String) :
    pathsWith ((p, oph) :: t) k =
      if oph = some k then p :: pathsWith t k else pathsWith t k := by
  by_cases h : oph = some k
  · simp [pathsWith, h]
  · simp [pathsWith, h]

theorem mlookup_foldl (h : List (Path × Option String)) :
    ∀ (m : List (String × List Path)) (k : String),
      mlookup
        (h.foldl
          (fun m e =>
            match e.2 with
            | none => m
            | some ph => insertIntoMapping m ph e.1)
          m) k
        = mlookup m k ++ pathsWith h k := by
  induction h with
  | nil => intro m k; simp [pathsWith]
  | cons e t ih =>
      intro m k
      obtain ⟨p, oph⟩ := e
      rw [List.foldl_cons]
      cases oph with
      | none => simpa [pathsWith_cons] using ih m k
      | some k0 =>
          rw [pathsWith_cons]
          by_cases hk : k0 = k
          · subst hk
            simp only [if_pos rfl]
            rw [ih (insertIntoMapping m k0 p) k0, mlookup_insert_self]
            simp
          · have : ¬ (some k0 = some k) := by simpa using hk
            simp only [if_neg this]
            rw [ih (insertIntoMapping m k0 p) k, mlookup_insert_ne m k0 k p (Ne.symm hk)]

theorem mlookup_buildMapping (h : List (Path × Option String)) (k : String) :
    mlookup (buildMapping h) k = pathsWith h k := by
  simpa [mlookup] using mlookup_foldl h [] k

theorem buildMapping_keys_nodup_aux (h : List (Path × Option String)) :
    ∀ m : List (String × List Path), (mkeys m).Nodup →
      (mkeys
        (h.foldl
          (fun m e =>
            match e.2 with
            | none => m
            | some ph => insertIntoMapping m ph e.1)
          m)).Nodup := by
  induction h with
  | nil => intro m hm; simpa using hm
  | cons e t ih =>
      intro m hm
      obtain ⟨p, oph⟩ := e
      rw [List.foldl_cons]
      cases oph with
      | none => exact ih m hm
      | some k0 => exact ih _ (mkeys_insert_nodup m k0 p hm)

theorem buildMapping_keys_nodup (h : List (Path × Option String)) :
    (mkeys (buildMapping h)).Nodup := by
  exact buildMapping_keys_nodup_aux h [] (by simp [mkeys])

theorem buildMapping_snd_ne_nil_aux (h : List (Path × Option String)) :
    ∀ m : List (String × List Path), (∀ e ∈ m, e.2 ≠ []) →
      ∀ e ∈
        (h.foldl
          (fun m e =>
            match e.2 with
            | none => m
            | some ph => insertIntoMapping m ph e.1)
          m), e.2 ≠ [] := by
  induction h with
  | nil => intro m hm; simpa using hm
  | cons e t ih =>
      intro m hm
      obtain ⟨p, oph⟩ := e
      rw [List.foldl_cons]
      cases oph with
      | none => exact ih m hm
      | some k0 => exact ih _ (insert_snd_ne_nil m k0 p hm)

theorem buildMapping_snd_ne_nil (h : List (Path × Option String)) :
    ∀ e ∈ buildMapping h, e.2 ≠ [] := by
  exact buildMapping_snd_ne_nil_aux h [] (by simp)

theorem mlookup_eq_of_mem (m : List (String × List Path)) (k : String) (ps : List Path)
    (hnd : (mkeys m).Nodup) (hmem : (k, ps) ∈ m) : mlookup m k = ps := by
  induction m with
  | nil => cases hmem
  | cons e rest ih =>
      obtain ⟨k0, ps0⟩ := e
      simp only [mkeys, List.map_cons, List.nodup_cons] at hnd
      rcases List.mem_cons.mp hmem with heq | hmem'
      · obtain ⟨rfl, rfl⟩ := Prod.mk.injEq .. ▸ heq
        · simp [mlookup]
      · have hk : k0 ≠ k := by
          intro hk0
          subst hk0
          exact hnd.1 (by simpa [mkeys] using List.mem_map_of_mem Prod.fst hmem')
        simp only [mlookup, if_neg hk]
        exact ih hnd.2 hmem'

theorem mem_of_mlookup_ne_nil (m : List (String × List Path)) (k : String)
    (hne : mlookup m k ≠ []) : (k, mlookup m k) ∈ m := by
  induction m with
  | nil => simp [mlookup] at hne
  | cons e rest ih =>
      obtain ⟨k0, ps0⟩ := e
      by_cases hk : k0 = k
      · subst hk
        simp [mlookup]
      · simp only [mlookup, if_neg hk] at hne ⊢
        exact List.mem_cons_of_mem _ (ih hne)

theorem mem_buildMapping_iff (h : List (Path × Option String)) (k : String)
    (ps : List Path) :
    (k, ps) ∈ buildMapping h ↔ ps = pathsWith h k ∧ ps ≠ [] := by
  constructor
  · intro hmem
    have h1 : mlookup (buildMapping h) k = ps :=
      mlookup_eq_of_mem _ _ _ (buildMapping_keys_nodup h) hmem
    have h2 : ps ≠ [] := buildMapping_snd_ne_nil h _ hmem
    exact ⟨by rw [← h1, mlookup_buildMapping], h2⟩
  · rintro ⟨rfl, hne⟩
    have := mem_of_mlookup_ne_nil (buildMapping h) k
      (by rw [mlookup_buildMapping]; exact hne)
    rwa [mlookup_buildMapping] at this

theorem mem_group_exact_duplicates_iff (h : List (Path × Option String))
    (g : List Path) :
    g ∈ group_exact_duplicates h ↔ (∃ k, g = pathsWith h k) ∧ 1 < g.length := by
  constructor
  · intro hg
    rw [group_exact_duplicates, List.mem_filter] at hg
    obtain ⟨hmap, hlen⟩ := hg
    obtain ⟨e, he, rfl⟩ := List.mem_map.mp hmap
    obtain ⟨k, ps⟩ := e
    have := (mem_buildMapping_iff h k ps).mp he
    exact ⟨⟨k, this.1⟩, by simpa using hlen⟩
  · rintro ⟨⟨k, rfl⟩, hlen⟩
    rw [group_exact_duplicates, List.mem_filter]
    constructor
    · apply List.mem_map.mpr
      refine ⟨(k, pathsWith h k), ?_, rfl⟩
      exact (mem_buildMapping_iff h k _).mpr ⟨rfl, by intro hnil; simp [hnil] at hlen⟩
    · simpa using hlen

theorem mem_pathsWith (h : List (Path × Option String)) (k : String) (p : Path) :
    p ∈ pathsWith h k ↔ (p, some k) ∈ h := by
  constructor
  · intro hp
    obtain ⟨e, he, rfl⟩ := List.mem_map.mp hp
    obtain ⟨he', hk⟩ := List.mem_filter.mp he
    obtain ⟨q, oph⟩ := e
    simp only [decide_eq_true_eq] at hk
    simpa [hk] using he'
  · intro hp
    apply List.mem_map.mpr
    refine ⟨(p, some k), ?_, rfl⟩
    exact List.mem_filter.mpr ⟨hp, by simp⟩

theorem key_unique (h : List (Path × Option String))
    (hnd : (h.map Prod.fst).Nodup) (p : Path) (v v' : Option String)
    (h1 : (p, v) ∈ h) (h2 : (p, v') ∈ h) : v = v' := by
  induction h with
  | nil => cases h1
  | cons e t ih =>
      obtain ⟨q, w⟩ := e
      simp only [List.map_cons, List.nodup_cons] at hnd
      rcases List.mem_cons.mp h1 with heq1 | hm1 <;>
        rcases List.mem_cons.mp h2 with heq2 | hm2
      · rw [Prod.mk.injEq] at heq1 heq2
        rw [heq1.2, heq2.2]
      · exfalso
        rw [Prod.mk.injEq] at heq1
        exact hnd.1 (heq1.1 ▸ List.mem_map_of_mem Prod.fst hm2)
      · exfalso
        rw [Prod.mk.injEq] at heq2
        exact hnd.1 (heq2.1 ▸ List.mem_map_of_mem Prod.fst hm1)
      · exact ih hnd.2 hm1 hm2

theorem one_lt_length_of_two_mem {p q : Path} {l : List Path}
    (hp : p ∈ l) (hq : q ∈ l) (hne : p ≠ q) : 1 < l.length := by
  match l with
  | [] => cases hp
  | [a] =>
      simp only [List.mem_singleton] at hp hq
      exact absurd (hp.trans hq.symm) hne
  | a :: b :: t => simp only [List.length_cons]; omega

theorem pathsWith_nodup (h : List (Path × Option String))
    (hnd : (h.map Prod.fst).Nodup) (k : String) : (pathsWith h k).Nodup := by
  have hsub : (h.filter (fun e => e.2 = some k)).map Prod.fst |>.Sublist (h.map Prod.fst) :=
    List.Sublist.map Prod.fst (List.filter_sublist h)
  exact List.Nodup.sublist hsub hnd

/-- C1: `group_exact_duplicates` returns exactly the equivalence classes of
paths under exact fingerprint equality that have size at least 2: every group
has size ≥ 2; every path in a group has a non-absent fingerprint; a path lies
in at most one group (and at most once in it); and two distinct paths share a
group iff both have equal, non-absent fingerprints. -/
theorem group_exact_duplicates_partition (h : List (Path × Option String))
    (hnd : (h.map Prod.fst).Nodup) :
    (∀ g ∈ group_exact_duplicates h, 2 ≤ g.length) ∧
    (∀ g ∈ group_exact_duplicates h, ∀ p ∈ g, ∃ f, (p, some f) ∈ h) ∧
    (∀ g1 ∈ group_exact_duplicates h, ∀ g2 ∈ group_exact_duplicates h,
      ∀ p : Path, p ∈ g1 → p ∈ g2 → g1 = g2) ∧
    (∀ g ∈ group_exact_duplicates h, g.Nodup) ∧
    (∀ p q : Path, p ≠ q →
      ((∃ g ∈ group_exact_duplicates h, p ∈ g ∧ q ∈ g) ↔
        ∃ f, (p, some f) ∈ h ∧ (q, some f) ∈ h)) := by
  refine ⟨?_, ?_, ?_, ?_, ?_⟩
  · intro g hg
    exact (mem_group_exact_duplicates_iff h g).mp hg |>.2
  · intro g hg p hp
    obtain ⟨⟨k, rfl⟩, _⟩ := (mem_group_exact_duplicates_iff h g).mp hg
    exact ⟨k, (mem_pathsWith h k p).mp hp⟩
  · intro g1 hg1 g2 hg2 p hp1 hp2
    obtain ⟨⟨k1, rfl⟩, _⟩ := (mem_group_exact_duplicates_iff h g1).mp hg1
    obtain ⟨⟨k2, rfl⟩, _⟩ := (mem_group_exact_duplicates_iff h g2).mp hg2
    have e1 := (mem_pathsWith h k1 p).mp hp1
    have e2 := (mem_pathsWith h k2 p).mp hp2
    have := key_unique h hnd p (some k1) (some k2) e1 e2
    rw [Option.some.injEq] at this
    rw [this]
  · intro g hg
    obtain ⟨⟨k, rfl⟩, _⟩ := (mem_group_exact_duplicates_iff h g).mp hg
    exact pathsWith_nodup h hnd k
  · intro p q hpq
    constructor
    · rintro ⟨g, hg, hp, hq⟩
      obtain ⟨⟨k, rfl⟩, _⟩ := (mem_group_exact_duplicates_iff h g).mp hg
      exact ⟨k, (mem_pathsWith h k p).mp hp, (mem_pathsWith h k q).mp hq⟩
    · rintro ⟨f, hp, hq⟩
      refine ⟨pathsWith h f, ?_, (mem_pathsWith h f p).mpr hp,
        (mem_pathsWith h f q).mpr hq⟩
      apply (mem_group_exact_duplicates_iff h _).mpr
      refine ⟨⟨f, rfl⟩, ?_⟩
      exact one_lt_length_of_two_mem ((mem_pathsWith h f p).mpr hp)
        ((mem_pathsWith h f q).mpr hq) hpq

/-- Concrete instance of `group_exact_duplicates_partition` on a four-entry
mapping with one failed fingerprint. -/
theorem group_exact_duplicates_partition_witness :
    (∀ g ∈ group_exact_duplicates
        [("a", some "x"), ("b", some "x"), ("c", none), ("d", some "y")], 2 ≤ g.length) ∧
    (∀ g ∈ group_exact_duplicates
        [("a", some "x"), ("b", some "x"), ("c", none), ("d", some "y")],
      ∀ p ∈ g, ∃ f, (p, some f) ∈
        [("a", some "x"), ("b", some "x"), ("c", none), ("d", some "y")]) ∧
    (∀ g1 ∈ group_exact_duplicates
        [("a", some "x"), ("b", some "x"), ("c", none), ("d", some "y")],
      ∀ g2 ∈ group_exact_duplicates
        [("a", some "x"), ("b", some "x"), ("c", none), ("d", some "y")],
      ∀ p : Path, p ∈ g1 → p ∈ g2 → g1 = g2) ∧
    (∀ g ∈ group_exact_duplicates
        [("a", some "x"), ("b", some "x"), ("c", none), ("d", some "y")], g.Nodup) ∧
    (∀ p q : Path, p ≠ q →
      ((∃ g ∈ group_exact_duplicates
          [("a", some "x"), ("b", some "x"), ("c", none), ("d", some "y")],
          p ∈ g ∧ q ∈ g) ↔
        ∃ f, (p, some f) ∈
            [("a", some "x"), ("b", some "x"), ("c", none), ("d", some "y")] ∧
          (q, some f) ∈
            [("a", some "x"), ("b", some "x"), ("c", none), ("d", some "y")])) :=
  group_exact_duplicates_partition
    [("a", some "x"), ("b", some "x"), ("c", none), ("d", some "y")] (by decide)

theorem pathsWith_perm (h1 h2 : List (Path × Option String))
    (hp : h1.Perm h2) (k : String) : (pathsWith h1 k).Perm (pathsWith h2 k) :=
  (hp.filter _).map _

theorem groups_perm_mono (h1 h2 : List (Path × Option String)) (hp : h1.Perm h2) :
    ∀ g1 ∈ group_exact_duplicates h1,
      ∃ g2 ∈ group_exact_duplicates h2, g1.Perm g2 := by
  intro g1 hg1
  obtain ⟨⟨k, rfl⟩, hlen⟩ := (mem_group_exact_duplicates_iff h1 g1).mp hg1
  refine ⟨pathsWith h2 k, ?_, pathsWith_perm h1 h2 hp k⟩
  apply (mem_group_exact_duplicates_iff h2 _).mpr
  refine ⟨⟨k, rfl⟩, ?_⟩
  rw [← (pathsWith_perm h1 h2 hp k).length_eq]
  exact hlen

/-- C6: grouping is order-independent: if two input mappings are permutations
of each other, each group produced from one input is, up to permutation of its
paths (hence as a set of paths), also produced from the other, and
conversely. -/
theorem group_exact_duplicates_order_independent
    (h1 h2 : List (Path × Option String)) (hp : h1.Perm h2) :
    (∀ g1 ∈ group_exact_duplicates h1,
      ∃ g2 ∈ group_exact_duplicates h2, g1.Perm g2) ∧
    (∀ g2 ∈ group_exact_duplicates h2,
      ∃ g1 ∈ group_exact_duplicates h1, g2.Perm g1) :=
  ⟨groups_perm_mono h1 h2 hp, groups_perm_mono h2 h1 hp.symm⟩

/-- Concrete instance of `group_exact_duplicates_order_independent` on a
mapping and its reversal. -/
theorem group_exact_duplicates_order_independent_witness :
    (∀ g1 ∈ group_exact_duplicates [("a", some "x"), ("b", some "x"), ("d", some "y")],
      ∃ g2 ∈ group_exact_duplicates [("d", some "y"), ("b", some "x"), ("a", some "x")],
        g1.Perm g2) ∧
    (∀ g2 ∈ group_exact_duplicates [("d", some "y"), ("b", some "x"), ("a", some "x")],
      ∃ g1 ∈ group_exact_duplicates [("a", some "x"), ("b", some "x"), ("d", some "y")],
        g2.Perm g1) :=
  group_exact_duplicates_order_independent
    [("a", some "x"), ("b", some "x"), ("d", some "y")]
    [("d", some "y"), ("b", some "x"), ("a", some "x")] (by decide)

theorem safe_compute_hash_fst (phash : PhashFn) (p : Path) :
    (safe_compute_hash phash p).1 = p := by
  cases hp : phash p <;> simp [safe_compute_hash, hp]

/-- C5: the fingerprint phase produces exactly one `FingerprintResult` per
input path — as many results as inputs, whose path components are exactly the
input list in order (so nothing is dropped or duplicated) — and a failing
hash computation yields `(path, None)` for that path instead of an
exception, while a successful one yields `(path, hash)`. -/
theorem computeHashResults_complete (phash : PhashFn) (images : List Path) :
    (computeHashResults phash images).length = images.length ∧
    (computeHashResults phash images).map Prod.fst = images ∧
    (images.Nodup → (computeHashResults phash images).Nodup) ∧
    (∀ p ∈ images, ∀ e, phash p = Except.error e →
      (p, (none : Option String)) ∈ computeHashResults phash images) ∧
    (∀ p ∈ images, ∀ h, phash p = Except.ok h →
      (p, some h) ∈ computeHashResults phash images) := by
  have hfst : (computeHashResults phash images).map Prod.fst = images := by
    rw [computeHashResults, List.map_map]
    have : Prod.fst ∘ safe_compute_hash phash = id :=
      funext fun p => safe_compute_hash_fst phash p
    rw [this, List.map_id]
  refine ⟨?_, hfst, ?_, ?_, ?_⟩
  · rw [computeHashResults, List.length_map]
  · intro hnd
    apply List.Nodup.map_on ?_ hnd
    intro x _ y _ hxy
    have := congrArg Prod.fst hxy
    rwa [safe_compute_hash_fst, safe_compute_hash_fst] at this
  · intro p hp e he
    have : (p, (none : Option String)) = safe_compute_hash phash p := by
      simp [safe_compute_hash, he]
    rw [this]
    exact List.mem_map_of_mem _ hp
  · intro p hp h he
    have : (p, some h) = safe_compute_hash phash p := by
      simp [safe_compute_hash, he]
    rw [this]
    exact List.mem_map_of_mem _ hp

/-- Concrete instance of `computeHashResults_complete`: two readable images
and one that fails to decode. -/
theorem computeHashResults_complete_witness :
    (computeHashResults
        (fun p => if p = "bad" then Except.error "decode" else Except.ok ("h" ++ p))
        ["a", "bad", "b"]).length = (["a", "bad", "b"] : List Path).length ∧
    (computeHashResults
        (fun p => if p = "bad" then Except.error "decode" else Except.ok ("h" ++ p))
        ["a", "bad", "b"]).map Prod.fst = ["a", "bad", "b"] ∧
    ((["a", "bad", "b"] : List Path).Nodup →
      (computeHashResults
        (fun p => if p = "bad" then Except.error "decode" else Except.ok ("h" ++ p))
        ["a", "bad", "b"]).Nodup) ∧
    (∀ p ∈ (["a", "bad", "b"] : List Path), ∀ e,
      (fun p => if p = "bad" then Except.error "decode" else Except.ok ("h" ++ p)) p
          = Except.error e →
      (p, (none : Option String)) ∈ computeHashResults
        (fun p => if p = "bad" then Except.error "decode" else Except.ok ("h" ++ p))
        ["a", "bad", "b"]) ∧
    (∀ p ∈ (["a", "bad", "b"] : List Path), ∀ h,
      (fun p => if p = "bad" then Except.error "decode" else Except.ok ("h" ++ p)) p
          = Except.ok h →
      (p, some h) ∈ computeHashResults
        (fun p => if p = "bad" then Except.error "decode" else Except.ok ("h" ++ p))
        ["a", "bad", "b"]) :=
  computeHashResults_complete
    (fun p => if p = "bad" then Except.error "decode" else Except.ok ("h" ++ p))
    ["a", "bad", "b"]

/-- C9: exactly the argument vectors `prog folder` and
`prog folder -m destination` are accepted and lead to a scan (exit 0 on
normal completion); every other shape prints the usage text and exits with
status 1 before any scanning. -/
theorem mainDispatch_cli (argv : List String) :
    (argv.length = 2 ∨ (argv.length = 4 ∧ argv.get? 2 = some "-m") →
      mainDispatch argv =
          MainAction.runScan (argv.getD 1 "")
            (if argv.length = 4 then some (argv.getD 3 "") else none) ∧
        exitCode (mainDispatch argv) = 0) ∧
    (¬(argv.length = 2 ∨ (argv.length = 4 ∧ argv.get? 2 = some "-m")) →
      mainDispatch argv = MainAction.usageExit usageText 1 ∧
        exitCode (mainDispatch argv) = 1) := by
  constructor
  · intro hvalid
    have hcond : ¬((argv.length ≠ 2 ∧ argv.length ≠ 4) ∨
        (argv.length = 4 ∧ argv.get? 2 ≠ some "-m")) := by
      rcases hvalid with h2 | ⟨h4, hm⟩
      · rintro (⟨ha, _⟩ | ⟨hb, _⟩)
        · exact ha h2
        · omega
      · rintro (⟨_, hb⟩ | ⟨_, hm'⟩)
        · exact hb h4
        · exact hm' hm
    rw [mainDispatch, if_neg hcond]
    exact ⟨rfl, rfl⟩
  · intro hinvalid
    have hcond : (argv.length ≠ 2 ∧ argv.length ≠ 4) ∨
        (argv.length = 4 ∧ argv.get? 2 ≠ some "-m") := by
      push_neg at hinvalid
      by_cases h4 : argv.length = 4
      · exact Or.inr ⟨h4, hinvalid.2 h4⟩
      · exact Or.inl ⟨hinvalid.1, h4⟩
    rw [mainDispatch, if_pos hcond]
    exact ⟨rfl, rfl⟩

/-- Concrete instances of `mainDispatch_cli`: a valid move invocation and an
invalid one-argument invocation. -/
theorem mainDispatch_cli_witness :
    (mainDispatch ["prog", "f", "-m", "d"] =
        MainAction.runScan "f" (some "d") ∧
      exitCode (mainDispatch ["prog", "f", "-m", "d"]) = 0) ∧
    (mainDispatch ["prog"] = MainAction.usageExit usageText 1 ∧
      exitCode (mainDispatch ["prog"]) = 1) := by
  constructor
  · have := (mainDispatch_cli ["prog", "f", "-m", "d"]).1 (by decide)
    simpa using this
  · exact (mainDispatch_cli ["prog"]).2 (by decide)

/-- C7: every progress render of a run over `n` items happens after some
`i`-th completion with `1 ≤ i ≤ n` (so no ETA is ever shown at completed
count 0), shows `n` as the total, and shows as ETA exactly
`(elapsed / i) * (n - i)`, which is nonnegative whenever the elapsed clock
reading is. -/
theorem progress_eta_formula (elapsedAt : Nat → ℚ) (n : Nat)
    (hel : ∀ i, 0 ≤ elapsedAt i) :
    ∀ c ∈ progressCalls elapsedAt n,
      1 ≤ c.1 ∧ c.1 ≤ n ∧ c.2.1 = n ∧
      c.2.2 = elapsedAt c.1 / (c.1 : ℚ) * ((n : ℚ) - (c.1 : ℚ)) ∧
      0 ≤ c.2.2 := by
  intro c hc
  obtain ⟨j, hj, rfl⟩ := List.mem_map.mp hc
  rw [List.mem_range] at hj
  refine ⟨by simp, by simpa using hj, rfl, rfl, ?_⟩
  show 0 ≤ etaAt (elapsedAt (j + 1)) (j + 1) n
  rw [etaAt]
  apply mul_nonneg
  · exact div_nonneg (hel _) (by positivity)
  · rw [sub_nonneg]
    exact_mod_cast Nat.succ_le_of_lt hj

/-- Concrete instance of `progress_eta_formula` with a constant unit clock
over three items, at the second completion's render. -/
theorem progress_eta_formula_witness :
    1 ≤ ((2 : Nat), (3 : Nat), etaAt 1 2 3).1 ∧
    ((2 : Nat), (3 : Nat), etaAt 1 2 3).1 ≤ 3 ∧
    ((2 : Nat), (3 : Nat), etaAt 1 2 3).2.1 = 3 ∧
    ((2 : Nat), (3 : Nat), etaAt 1 2 3).2.2 =
      (fun _ => (1 : ℚ)) ((2 : Nat), (3 : Nat), etaAt 1 2 3).1 /
        ((((2 : Nat), (3 : Nat), etaAt 1 2 3).1 : Nat) : ℚ) *
        (((3 : Nat) : ℚ) - ((((2 : Nat), (3 : Nat), etaAt 1 2 3).1 : Nat) : ℚ)) ∧
    0 ≤ ((2 : Nat), (3 : Nat), etaAt 1 2 3).2.2 :=
  progress_eta_formula (fun _ => (1 : ℚ)) 3 (fun _ => by norm_num)
    ((2 : Nat), (3 : Nat), etaAt 1 2 3)
    (by simp [progressCalls, List.range_succ])

theorem firstMax_cons (sz : Path → Nat) (p q : Path) (ps : List Path) :
    firstMax sz p (q :: ps) = firstMax sz (if sz p < sz q then q else p) ps := by
  rw [firstMax, List.foldl_cons, firstMax]

theorem sz_le_firstMax (sz : Path → Nat) (ps : List Path) :
    ∀ p, sz p ≤ sz (firstMax sz p ps) := by
  induction ps with
  | nil => intro p; simp [firstMax]
  | cons q ps ih =>
      intro p
      rw [firstMax_cons]
      by_cases h : sz p < sz q
      · rw [if_pos h]
        exact le_trans (le_of_lt h) (ih q)
      · rw [if_neg h]
        exact ih p

theorem firstMax_decomp (sz : Path → Nat) (ps : List Path) :
    ∀ p, ∃ l1 l2, p :: ps = l1 ++ firstMax sz p ps :: l2 ∧
      (∀ q ∈ l1, sz q < sz (firstMax sz p ps)) ∧
      (∀ q ∈ l2, sz q ≤ sz (firstMax sz p ps)) := by
  induction ps with
  | nil =>
      intro p
      exact ⟨[], [], by simp [firstMax], by simp, by simp⟩
  | cons q ps ih =>
      intro p
      rw [firstMax_cons]
      by_cases h : sz p < sz q
      · rw [if_pos h]
        obtain ⟨l1, l2, hcat, h1, h2⟩ := ih q
        refine ⟨p :: l1, l2, ?_, ?_, h2⟩
        · rw [List.cons_append, ← hcat]
        · intro x hx
          rcases List.mem_cons.mp hx with rfl | hx'
          · exact lt_of_lt_of_le h (sz_le_firstMax sz ps q)
          · exact h1 x hx'
      · rw [if_neg h]
        obtain ⟨l1, l2, hcat, h1, h2⟩ := ih p
        cases l1 with
        | nil =>
            simp only [List.nil_append] at hcat
            obtain ⟨hfm, hl2⟩ := List.cons.inj hcat
            refine ⟨[], q :: l2, ?_, by simp, ?_⟩
            · simp [← hfm, ← hl2]
            · intro x hx
              rcases List.mem_cons.mp hx with rfl | hx'
              · rw [← hfm]; omega
              · exact h2 x hx'
        | cons a l1' =>
            simp only [List.cons_append] at hcat
            obtain ⟨hap, hps⟩ := List.cons.inj hcat
            have hpfm : sz p < sz (firstMax sz p ps) := by
              have := h1 a (List.mem_cons_self a l1')
              rwa [← hap] at this
            refine ⟨p :: q :: l1', l2, ?_, ?_, h2⟩
            · rw [List.cons_append, List.cons_append, ← hps]
            · intro x hx
              rcases List.mem_cons.mp hx with rfl | hx'
              · exact hpfm
              · rcases List.mem_cons.mp hx' with rfl | hx''
                · omega
                · exact h1 x (List.mem_cons_of_mem a hx'')

theorem firstMax_mem (sz : Path → Nat) (p : Path) (ps : List Path) :
    firstMax sz p ps ∈ p :: ps := by
  obtain ⟨l1, l2, hcat, _, _⟩ := firstMax_decomp sz ps p
  rw [hcat]
  exact List.mem_append_right l1 (List.mem_cons_self _ _)

theorem firstMax_ge (sz : Path → Nat) (p : Path) (ps : List Path) :
    ∀ q ∈ p :: ps, sz q ≤ sz (firstMax sz p ps) := by
  obtain ⟨l1, l2, hcat, h1, h2⟩ := firstMax_decomp sz ps p
  intro q hq
  rw [hcat] at hq
  rcases List.mem_append.mp hq with hq1 | hq2
  · exact le_of_lt (h1 q hq1)
  · rcases List.mem_cons.mp hq2 with rfl | hq3
    · exact le_refl _
    · exact h2 q hq3

theorem pyMaxBySizeGo_eq (size : Path → Option Nat) (qs : List Path)
    (hsz : ∀ q ∈ qs, (size q).isSome) :
    ∀ (b : Path) (s : Nat), (size b).getD 0 = s →
      pyMaxBySizeGo size qs (b, s) =
        some (firstMax (fun q => (size q).getD 0) b qs) := by
  induction qs with
  | nil => intro b s _; simp [pyMaxBySizeGo, firstMax]
  | cons q qs ih =>
      intro b s hbs
      obtain ⟨sq, hq⟩ := Option.isSome_iff_exists.mp (hsz q (List.mem_cons_self q qs))
      have hqd : (size q).getD 0 = sq := by rw [hq]; rfl
      have hsz' : ∀ x ∈ qs, (size x).isSome :=
        fun x hx => hsz x (List.mem_cons_of_mem q hx)
      rw [firstMax_cons]
      simp only [pyMaxBySizeGo, hq, hbs, hqd, Option.getD_some]
      by_cases hlt : s < sq
      · rw [if_pos hlt, if_pos hlt]
        exact ih hsz' q sq hqd
      · rw [if_neg hlt, if_neg hlt]
        exact ih hsz' b s hbs

theorem pyMaxBySize_eq (size : Path → Option Nat) (p : Path) (ps : List Path)
    (hsz : ∀ q ∈ p :: ps, (size q).isSome) :
    pyMaxBySize size (p :: ps) =
      some (firstMax (fun q => (size q).getD 0) p ps) := by
  obtain ⟨s, hs⟩ := Option.isSome_iff_exists.mp (hsz p (List.mem_cons_self p ps))
  rw [pyMaxBySize, hs]
  exact pyMaxBySizeGo_eq size ps
    (fun x hx => hsz x (List.mem_cons_of_mem p hx)) p s (by rw [hs]; rfl)

theorem moveOthers_all_ok (mvOk : Path → Bool) (o : Path) (l : List Path)
    (h : ∀ q ∈ l, q ≠ o → mvOk q = true) :
    moveOthers mvOk o l = (l.filter (fun q => q ≠ o), false) := by
  induction l with
  | nil => simp [moveOthers]
  | cons a l ih =>
      have ih' := ih (fun q hq => h q (List.mem_cons_of_mem a hq))
      by_cases ha : a = o
      · subst ha
        rw [moveOthers, if_pos rfl, ih']
        simp
      · have hma : mvOk a = true := h a (List.mem_cons_self a l) ha
        rw [moveOthers, if_neg ha, if_pos hma, ih']
        simp [ha]

theorem length_filter_ne (o : Path) (l : List Path) (hnd : l.Nodup) (ho : o ∈ l) :
    (l.filter (fun q => q ≠ o)).length + 1 = l.length := by
  induction l with
  | nil => cases ho
  | cons a l ih =>
      rw [List.nodup_cons] at hnd
      by_cases ha : a = o
      · subst ha
        have hfe : l.filter (fun q => q ≠ a) = l := by
          apply List.filter_eq_self.mpr
          intro x hx
          simp only [decide_eq_true_eq]
          intro hxa
          exact hnd.1 (hxa ▸ hx)
        rw [List.filter_cons, if_neg (by simp), hfe, List.length_cons]
      · have ho' : o ∈ l := by
          rcases List.mem_cons.mp ho with h | h
          · exact absurd h.symm ha
          · exact h
        have hrec := ih hnd.2 ho'
        simp only [List.filter_cons]
        rw [if_pos (by simpa using ha)]
        simp only [List.length_cons]
        omega

/-- C2: when every size lookup and every move in the group succeeds, the move
phase keeps exactly one path of the group — one of greatest byte size — and
moves every other path of the group into the quarantine directory; the kept
path is never moved. -/
theorem moveGroup_keeps_largest (size : Path → Option Nat) (mvOk : Path → Bool)
    (g : List Path) (hg : g ≠ []) (hnd : g.Nodup)
    (hsz : ∀ q ∈ g, (size q).isSome) (hmv : ∀ q ∈ g, mvOk q = true) :
    ∃ original,
      pyMaxBySize size g = some original ∧
      original ∈ g ∧
      (∀ q ∈ g, (size q).getD 0 ≤ (size original).getD 0) ∧
      moveGroup size mvOk g = (g.filter (fun q => q ≠ original), false) ∧
      original ∉ (moveGroup size mvOk g).1 ∧
      (∀ q ∈ g, q ≠ original → q ∈ (moveGroup size mvOk g).1) ∧
      (moveGroup size mvOk g).1.length + 1 = g.length := by
  obtain ⟨p, ps, rfl⟩ := List.exists_cons_of_ne_nil hg
  have hmax := pyMaxBySize_eq size p ps hsz
  have homem : firstMax (fun q => (size q).getD 0) p ps ∈ p :: ps :=
    firstMax_mem _ p ps
  have hmg : moveGroup size mvOk (p :: ps) =
      ((p :: ps).filter (fun q => q ≠ firstMax (fun q => (size q).getD 0) p ps),
        false) := by
    rw [moveGroup, hmax]
    exact moveOthers_all_ok mvOk _ (p :: ps) (fun q hq _ => hmv q hq)
  have hmg1 : (moveGroup size mvOk (p :: ps)).1 =
      (p :: ps).filter (fun q => q ≠ firstMax (fun q => (size q).getD 0) p ps) := by
    rw [hmg]
  refine ⟨firstMax (fun q => (size q).getD 0) p ps, hmax, homem,
    firstMax_ge _ p ps, hmg, ?_, ?_, ?_⟩
  · rw [hmg1]
    intro hmem
    have := (List.mem_filter.mp hmem).2
    simp at this
  · intro q hq hqo
    rw [hmg1]
    exact List.mem_filter.mpr ⟨hq, by simp [hqo]⟩
  · rw [hmg1]
    exact length_filter_ne _ _ hnd homem

/-- Concrete instance of `moveGroup_keeps_largest` on a three-element group
with sizes 3, 5, 4. -/
theorem moveGroup_keeps_largest_witness :
    ∃ original,
      pyMaxBySize (fun p => if p = "a" then some 3 else if p = "b" then some 5 else some 4)
          ["a", "b", "c"] = some original ∧
      original ∈ (["a", "b", "c"] : List Path) ∧
      (∀ q ∈ (["a", "b", "c"] : List Path),
        ((fun p => if p = "a" then some 3 else if p = "b" then some 5 else some 4) q).getD 0 ≤
          ((fun p => if p = "a" then some 3 else if p = "b" then some 5 else some 4) original).getD 0) ∧
      moveGroup (fun p => if p = "a" then some 3 else if p = "b" then some 5 else some 4)
          (fun _ => true) ["a", "b", "c"] =
        ((["a", "b", "c"] : List Path).filter (fun q => q ≠ original), false) ∧
      original ∉ (moveGroup
          (fun p => if p = "a" then some 3 else if p = "b" then some 5 else some 4)
          (fun _ => true) ["a", "b", "c"]).1 ∧
      (∀ q ∈ (["a", "b", "c"] : List Path), q ≠ original →
        q ∈ (moveGroup
          (fun p => if p = "a" then some 3 else if p = "b" then some 5 else some 4)
          (fun _ => true) ["a", "b", "c"]).1) ∧
      (moveGroup (fun p => if p = "a" then some 3 else if p = "b" then some 5 else some 4)
          (fun _ => true) ["a", "b", "c"]).1.length + 1 =
        (["a", "b", "c"] : List Path).length :=
  moveGroup_keeps_largest
    (fun p => if p = "a" then some 3 else if p = "b" then some 5 else some 4)
    (fun _ => true) ["a", "b", "c"] (by decide) (by decide) (by decide) (by decide)

/-- C10: the kept original is the first maximal-size path in the group's
iteration order — everything before it is strictly smaller — and every path
after it (in particular every later path tying on size) is moved. -/
theorem moveGroup_tie_break (size : Path → Option Nat) (mvOk : Path → Bool)
    (g : List Path) (hg : g ≠ []) (hnd : g.Nodup)
    (hsz : ∀ q ∈ g, (size q).isSome) (hmv : ∀ q ∈ g, mvOk q = true) :
    ∃ original l1 l2,
      pyMaxBySize size g = some original ∧
      g = l1 ++ original :: l2 ∧
      (∀ q ∈ l1, (size q).getD 0 < (size original).getD 0) ∧
      (∀ q ∈ l2, (size q).getD 0 ≤ (size original).getD 0) ∧
      (∀ q ∈ l2, q ∈ (moveGroup size mvOk g).1) := by
  obtain ⟨p, ps, rfl⟩ := List.exists_cons_of_ne_nil hg
  have hmax := pyMaxBySize_eq size p ps hsz
  obtain ⟨l1, l2, hcat, h1, h2⟩ := firstMax_decomp (fun q => (size q).getD 0) ps p
  have hmg : moveGroup size mvOk (p :: ps) =
      ((p :: ps).filter (fun q => q ≠ firstMax (fun q => (size q).getD 0) p ps),
        false) := by
    rw [moveGroup, hmax]
    exact moveOthers_all_ok mvOk _ (p :: ps) (fun q hq _ => hmv q hq)
  have hnotin : firstMax (fun q => (size q).getD 0) p ps ∉ l2 := by
    rw [hcat] at hnd
    exact (List.nodup_cons.mp (List.nodup_append.mp hnd).2.1).1
  refine ⟨firstMax (fun q => (size q).getD 0) p ps, l1, l2, hmax, hcat, h1, h2, ?_⟩
  intro q hq
  have hqmem : q ∈ p :: ps := by
    rw [hcat]
    exact List.mem_append_right l1 (List.mem_cons_of_mem _ hq)
  have hqo : q ≠ firstMax (fun q => (size q).getD 0) p ps := by
    intro heq
    exact hnotin (heq ▸ hq)
  have hmg1 : (moveGroup size mvOk (p :: ps)).1 =
      (p :: ps).filter (fun q => q ≠ firstMax (fun q => (size q).getD 0) p ps) := by
    rw [hmg]
  rw [hmg1]
  exact List.mem_filter.mpr ⟨hqmem, by simp [hqo]⟩

/-- Concrete instance of `moveGroup_tie_break` on a group whose first two
paths tie on the greatest size. -/
theorem moveGroup_tie_break_witness :
    ∃ original l1 l2,
      pyMaxBySize (fun p => if p = "c" then some 1 else some 5)
          ["a", "b", "c"] = some original ∧
      (["a", "b", "c"] : List Path) = l1 ++ original :: l2 ∧
      (∀ q ∈ l1, ((fun p => if p = "c" then some 1 else some 5) q).getD 0 <
        ((fun p => if p = "c" then some 1 else some 5) original).getD 0) ∧
      (∀ q ∈ l2, ((fun p => if p = "c" then some 1 else some 5) q).getD 0 ≤
        ((fun p => if p = "c" then some 1 else some 5) original).getD 0) ∧
      (∀ q ∈ l2, q ∈ (moveGroup (fun p => if p = "c" then some 1 else some 5)
        (fun _ => true) ["a", "b", "c"]).1) :=
  moveGroup_tie_break (fun p => if p = "c" then some 1 else some 5)
    (fun _ => true) ["a", "b", "c"] (by decide) (by decide) (by decide) (by decide)

/-- C4 counterexample: per-file error isolation fails on the code. With
groups `[["a", "b"], ["c", "d"]]`, a size lookup failing only for `"a"`, and
every move succeeding, the exception raised inside `max` for the first group
aborts the whole move phase, so `"d"` — a non-original of the unaffected
second group whose own move would succeed — is never moved. -/
theorem move_failure_not_isolated : ¬ MoveFailureIsolated := by
  intro hiso
  have hd :=
    hiso (fun p => if p = "a" then none else if p = "c" then some 2 else some 1)
      (fun _ => true) [["a", "b"], ["c", "d"]] ["c", "d"] (by decide) "d" (by decide)
      rfl ⟨"c", by decide, by decide⟩
  exact absurd hd (by decide)

/-- C4 amended: per-file errors in the move phase are not isolated — the
first raised exception aborts the rest. A group whose processing raises
terminates the phase with no later group processed, and inside a group a
failing move aborts the remaining iterations, leaving every file after the
failing one unmoved. -/
theorem move_errors_abort (size : Path → Option Nat) (mvOk : Path → Bool) :
    (∀ (g : List Path) (gs : List (List Path)) (ms : List Path),
      moveGroup size mvOk g = (ms, true) →
      movePhase size mvOk (g :: gs) = (ms, true)) ∧
    (∀ (o : Path) (l1 l2 : List Path) (p : Path),
      mvOk p = false → p ≠ o → (∀ q ∈ l1, q ≠ o → mvOk q = true) →
      moveOthers mvOk o (l1 ++ p :: l2) = (l1.filter (fun q => q ≠ o), true)) := by
  constructor
  · intro g gs ms h
    rw [movePhase]
    simp [h]
  · intro o l1 l2 p hp hpo hl1
    induction l1 with
    | nil =>
        simp only [List.nil_append]
        rw [moveOthers, if_neg hpo, if_neg (by simp [hp])]
        simp
    | cons a l1 ih =>
        have ih' := ih (fun q hq => hl1 q (List.mem_cons_of_mem a hq))
        by_cases ha : a = o
        · subst ha
          rw [List.cons_append, moveOthers, if_pos rfl, ih', List.filter_cons,
            if_neg (by simp)]
        · have hma : mvOk a = true := hl1 a (List.mem_cons_self a l1) ha
          rw [List.cons_append, moveOthers, if_neg ha, if_pos hma, ih',
            List.filter_cons, if_pos (by simpa using ha)]

/-- Concrete instance of `move_errors_abort`: a failing move for `"q"`
leaves `"c"` (same group, after the failure) unmoved, and the aborted first
group keeps the second group `["x", "y"]` entirely unprocessed. -/
theorem move_errors_abort_witness :
    movePhase (fun _ => some 1) (fun q => q ≠ "q")
        [["a", "b", "q", "c"], ["x", "y"]] = (["b"], true) ∧
    moveOthers (fun q => q ≠ "q") "a" (["b"] ++ "q" :: ["c"]) =
      ((["b"] : List Path).filter (fun q => q ≠ "a"), true) := by
  constructor
  · exact (move_errors_abort (fun _ => some 1) (fun q => q ≠ "q")).1
      ["a", "b", "q", "c"] [["x", "y"]] ["b"] (by decide)
  · exact (move_errors_abort (fun _ => some 1) (fun q => q ≠ "q")).2
      "a" ["b"] ["c"] "q" (by decide) (by decide) (by decide)

/-- C8 counterexample: on an empty input list the hashing loop body never
runs, so no progress line at all is rendered — in particular none with
`completed = total`. -/
theorem progress_no_final_render_on_empty :
    ¬ ∃ c ∈ progressCalls (fun _ => (0 : ℚ)) 0, c.1 = c.2.1 := by
  simp [progressCalls]

/-- C8 amended: for every nonempty input list, the last progress render of
the fingerprint phase has `completed = total` and its bar is drawn entirely
with `#` (100%). -/
theorem progress_final_render (elapsedAt : Nat → ℚ) (n : Nat) (hn : 1 ≤ n) :
    ∃ c ∈ progressCalls elapsedAt n,
      c.1 = n ∧ c.2.1 = n ∧
      barString c.1 c.2.1 40 = String.mk (List.replicate 40 '#') := by
  refine ⟨(n, n, etaAt (elapsedAt n) n n), ?_, rfl, rfl, ?_⟩
  · apply List.mem_map.mpr
    refine ⟨n - 1, List.mem_range.mpr (by omega), ?_⟩
    have hsucc : n - 1 + 1 = n := by omega
    rw [hsucc]
  · have hfrac : barFraction n n = 1 := by
      rw [barFraction, if_pos (by omega)]
      have hne : (n : ℚ) ≠ 0 := by
        exact_mod_cast Nat.pos_iff_ne_zero.mp (by omega)
      field_simp
    have hdw : doneWidth n n 40 = 40 := by
      rw [doneWidth, hfrac]
      norm_num
      decide
    rw [barString, hdw]
    simp

/-- Concrete instance of `progress_final_render` for a two-item run. -/
theorem progress_final_render_witness :
    ∃ c ∈ progressCalls (fun _ => (1 : ℚ)) 2,
      c.1 = 2 ∧ c.2.1 = 2 ∧
      barString c.1 c.2.1 40 = String.mk (List.replicate 40 '#') :=
  progress_final_render (fun _ => (1 : ℚ)) 2 (by norm_num)

theorem decChars_lt10 (n : Nat) (h : n < 10) : decChars n = [Nat.digitChar n] := by
  rw [decChars, if_pos h]

theorem decChars_ge10 (n : Nat) (h : ¬ n < 10) :
    decChars n = decChars (n / 10) ++ [Nat.digitChar (n % 10)] := by
  rw [decChars]
  exact if_neg h

theorem toDigitsCore_eq_decChars :
    ∀ (fuel n : Nat) (ds : List Char), n < fuel →
      Nat.toDigitsCore 10 fuel n ds = decChars n ++ ds := by
  intro fuel
  induction fuel with
  | zero => intro n ds h; omega
  | succ fuel ih =>
      intro n ds h
      simp only [Nat.toDigitsCore]
      by_cases h10 : n / 10 = 0
      · rw [if_pos h10]
        have hn : n < 10 := by omega
        rw [decChars_lt10 n hn, Nat.mod_eq_of_lt hn]
        simp
      · rw [if_neg h10]
        have hn10 : ¬ n < 10 := fun hlt => h10 (Nat.div_eq_of_lt hlt)
        have hlt : n / 10 < fuel := by
          have hdlt : n / 10 < n := Nat.div_lt_self (by omega) (by omega)
          omega
        rw [ih (n / 10) (Nat.digitChar (n % 10) :: ds) hlt, decChars_ge10 n hn10]
        simp

theorem repr_eq_decChars (n : Nat) : Nat.repr n = (decChars n).asString := by
  rw [Nat.repr, Nat.toDigits, toDigitsCore_eq_decChars (n + 1) n [] (by omega)]
  simp

theorem digitVal_digitChar (n : Nat) (h : n < 10) : digitVal (Nat.digitChar n) = n := by
  interval_cases n <;> rfl

theorem digitChar_inj_lt (a b : Nat) (ha : a < 10) (hb : b < 10)
    (h : Nat.digitChar a = Nat.digitChar b) : a = b := by
  have := congrArg digitVal h
  rwa [digitVal_digitChar a ha, digitVal_digitChar b hb] at this

theorem decChars_ne_nil (n : Nat) : decChars n ≠ [] := by
  by_cases h : n < 10
  · rw [decChars_lt10 n h]
    simp
  · rw [decChars_ge10 n h]
    simp

theorem decChars_injective : ∀ n m : Nat, decChars n = decChars m → n = m := by
  intro n
  induction n using Nat.strong_induction_on with
  | _ n ih =>
      intro m h
      by_cases hn : n < 10 <;> by_cases hm : m < 10
      · rw [decChars_lt10 n hn, decChars_lt10 m hm] at h
        exact digitChar_inj_lt n m hn hm (List.cons.inj h).1
      · rw [decChars_lt10 n hn, decChars_ge10 m hm] at h
        have hlen := congrArg List.length h
        rw [List.length_singleton, List.length_append, List.length_singleton] at hlen
        exact absurd (List.length_eq_zero.mp (by omega)) (decChars_ne_nil (m / 10))
      · rw [decChars_ge10 n hn, decChars_lt10 m hm] at h
        have hlen := congrArg List.length h
        rw [List.length_singleton, List.length_append, List.length_singleton] at hlen
        exact absurd (List.length_eq_zero.mp (by omega)) (decChars_ne_nil (n / 10))
      · rw [decChars_ge10 n hn, decChars_ge10 m hm] at h
        obtain ⟨h1, h2⟩ := List.append_inj' h rfl
        have hdiv : n / 10 = m / 10 :=
          ih (n / 10) (Nat.div_lt_self (by omega) (by omega)) (m / 10) h1
        have hmod : n % 10 = m % 10 :=
          digitChar_inj_lt _ _ (Nat.mod_lt n (by omega)) (Nat.mod_lt m (by omega))
            (List.cons.inj h2).1
        omega

theorem nat_repr_inj (a b : Nat) (h : Nat.repr a = Nat.repr b) : a = b := by
  rw [repr_eq_decChars, repr_eq_decChars] at h
  exact decChars_injective a b (List.asString_inj.mp h)

theorem candName_inj (base ext : String) (i j : Nat)
    (h : candName base ext i = candName base ext j) : i = j := by
  have hd := congrArg String.data h
  simp only [candName, String.data_append, List.append_assoc] at hd
  have h1 := List.append_cancel_left hd
  have h2 := List.append_cancel_left h1
  have h3 := List.append_cancel_right h2
  exact nat_repr_inj i j (by apply String.ext; exact h3)

theorem exists_free_candidate (used : List String) (base ext : String) :
    ∃ j, 1 ≤ j ∧ j < 1 + (used.length + 1) ∧ candName base ext j ∉ used := by
  by_contra hall
  push_neg at hall
  have hsub : ((List.range (used.length + 1)).map (fun j => candName base ext (j + 1)))
      ⊆ used := by
    intro c hc
    obtain ⟨j, hj, rfl⟩ := List.mem_map.mp hc
    rw [List.mem_range] at hj
    exact hall (j + 1) (by omega) (by omega)
  have hinj : Function.Injective (fun j => candName base ext (j + 1)) := by
    intro j1 j2 hj
    have := candName_inj base ext (j1 + 1) (j2 + 1) hj
    omega
  have hnd : ((List.range (used.length + 1)).map
      (fun j => candName base ext (j + 1))).Nodup :=
    List.Nodup.map hinj (List.nodup_range _)
  have hle := (List.subperm_of_subset hnd hsub).length_le
  rw [List.length_map, List.length_range] at hle
  omega

theorem findFreeName_spec (used : List String) (base ext : String) :
    ∀ (fuel i : Nat),
      (∃ j, i ≤ j ∧ j < i + fuel ∧ candName base ext j ∉ used) →
      ∃ k, i ≤ k ∧
        findFreeName used base ext fuel i = some (candName base ext k) ∧
        candName base ext k ∉ used ∧
        ∀ j, i ≤ j → j < k → candName base ext j ∈ used := by
  intro fuel
  induction fuel with
  | zero =>
      rintro i ⟨j, h1, h2, _⟩
      omega
  | succ fuel ih =>
      intro i hex
      by_cases hi : candName base ext i ∈ used
      · have hex' : ∃ j, i + 1 ≤ j ∧ j < (i + 1) + fuel ∧ candName base ext j ∉ used := by
          obtain ⟨j, h1, h2, h3⟩ := hex
          have hji : j ≠ i := fun hji => h3 (hji ▸ hi)
          exact ⟨j, by omega, by omega, h3⟩
        obtain ⟨k, hk1, hk2, hk3, hk4⟩ := ih (i + 1) hex'
        refine ⟨k, by omega, ?_, hk3, ?_⟩
        · rw [findFreeName, if_pos hi]
          exact hk2
        · intro j hj1 hj2
          rcases Nat.eq_or_lt_of_le hj1 with rfl | hj3
          · exact hi
          · exact hk4 j hj3 hj2
      · refine ⟨i, le_refl i, ?_, hi, fun j hj1 hj2 => by omega⟩
        rw [findFreeName, if_neg hi]

/-- C3: `move_duplicate` never overwrites an existing file in the quarantine
directory: it always finds a destination name that is not among the names
already present — the source's base name when that is unused, otherwise the
base name with suffix `_k` before the extension for the smallest `k ≥ 1`
whose candidate is unused. -/
theorem move_duplicate_no_overwrite (used : List String) (base ext : String) :
    ∃ d, move_duplicate_dest used base ext = some d ∧ d ∉ used ∧
      (base ++ ext ∉ used → d = base ++ ext) ∧
      (base ++ ext ∈ used →
        ∃ k, 1 ≤ k ∧ d = candName base ext k ∧
          ∀ j, 1 ≤ j → j < k → candName base ext j ∈ used) := by
  by_cases hname : base ++ ext ∈ used
  · obtain ⟨j, hj1, hj2, hj3⟩ := exists_free_candidate used base ext
    obtain ⟨k, hk1, hk2, hk3, hk4⟩ :=
      findFreeName_spec used base ext (used.length + 1) 1 ⟨j, hj1, by omega, hj3⟩
    refine ⟨candName base ext k, ?_, hk3, fun h => absurd hname h,
      fun _ => ⟨k, hk1, rfl, hk4⟩⟩
    rw [move_duplicate_dest, if_pos hname]
    exact hk2
  · exact ⟨base ++ ext, by rw [move_duplicate_dest, if_neg hname], hname,
      fun _ => rfl, fun h => absurd h hname⟩

/-- Concrete instance of `move_duplicate_no_overwrite`: with `a.png` and
`a_1.png` already present, moving another `a.png` picks `a_2.png`. -/
theorem move_duplicate_no_overwrite_witness :
    ∃ d, move_duplicate_dest ["a.png", "a_1.png"] "a" ".png" = some d ∧
      d ∉ ["a.png", "a_1.png"] ∧
      ("a" ++ ".png" ∉ ["a.png", "a_1.png"] → d = "a" ++ ".png") ∧
      ("a" ++ ".png" ∈ ["a.png", "a_1.png"] →
        ∃ k, 1 ≤ k ∧ d = candName "a" ".png" k ∧
          ∀ j, 1 ≤ j → j < k → candName "a" ".png" j ∈ ["a.png", "a_1.png"]) :=
  move_duplicate_no_overwrite ["a.png", "a_1.png"] "a" ".png"

end PhotoDup
